import Mathlib

/-!
Shallow embedding of the letrboxd solver pool (`src/site/solver-pool.mjs`) and
the page script that constructs it, together with proofs about the claims of
the specification.

The embedding models:
* the five word-count solution buckets kept by `SolverPool`;
* the aggregator state machine (`#handleWorkerMessage`, `sendSolutionsRequest`);
* the work partitioning performed on a `ValidWordsResponse`;
* the solver worker's `SolutionsRequest` loop, with its sub-range chunking,
  `isFinalResponse` flag, and lazy supersession check at each yield point;
* `maybeGetSolverCountFromUrl` and the default solver count;
* `sortSolutions` of the sort worker.

The WASM solver itself (`wasm.solutions`) is external generated code; it is
abstracted as an uninterpreted function parameter `solve`, since the
claims under study concern chunk structure, tagging and aggregation, not the
solution contents.  Solution values are likewise kept as a type parameter `α`
so that provenance of individual solutions can be tracked.
-/

namespace Letrboxd

/-- The five solution buckets of `SolverPool.#solutions`: index 0 stores
1-word solutions, index 1 stores 2-word solutions, and so on. -/
structure Buckets (α : Type) where
  oneWord : List α
  twoWord : List α
  threeWord : List α
  fourWord : List α
  fiveWord : List α
  deriving Repr, DecidableEq

/-- Model of `#resetSolutions` and of the initial value of `#solutions`: five empty arrays. -/
def emptyBuckets (α : Type) : Buckets α := ⟨[], [], [], [], []⟩

/-- The per-bucket `push(...spread)` performed by the `SolutionsResponse`
branch of `#handleWorkerMessage`: append the payload to each stored bucket. -/
def appendBuckets {α : Type} (stored payload : Buckets α) : Buckets α :=
  ⟨stored.oneWord ++ payload.oneWord,
   stored.twoWord ++ payload.twoWord,
   stored.threeWord ++ payload.threeWord,
   stored.fourWord ++ payload.fourWord,
   stored.fiveWord ++ payload.fiveWord⟩

/-- All solutions stored in the five buckets, flattened. -/
def bucketsElems {α : Type} (b : Buckets α) : List α :=
  b.oneWord ++ b.twoWord ++ b.threeWord ++ b.fourWord ++ b.fiveWord

/-- The cumulative solution count across the five buckets. -/
def totalCount {α : Type} (b : Buckets α) : Nat := (bucketsElems b).length

/-- A `SolutionsResponse` message posted by a solver worker: the request id,
the `isFinalResponse` flag, and the five per-bucket solution arrays. -/
structure SolutionsResponse (α : Type) where
  requestId : Nat
  isFinalResponse : Bool
  payload : Buckets α
  deriving Repr, DecidableEq

/-- A `SolutionsRequest` message sent by the pool to one worker, carrying its
assigned half-open range `[rangeStart, rangeEnd)` of the candidate list.
(The `serializedWords` buffer is not modelled; the claims do not mention it.) -/
structure SolutionsRequestMsg where
  requestId : Nat
  rangeStart : Nat
  rangeEnd : Nat
  deriving Repr, DecidableEq

/-- The messages a `SolverPool` can receive from a worker, tagged as in the
source by their `type` string; `unknown` stands for any message whose tag is
none of the three known ones and records that tag. -/
inductive PoolMsg (α : Type) where
  | wasmInitialized
  | validWordsResponse (requestId : Nat) (wordCount : Nat)
  | solutionsResponse (resp : SolutionsResponse α)
  | unknown (tag : String)
  deriving Repr, DecidableEq

/-- The detail of a `SolutionsUpdated` custom event dispatched to the page:
the request id, the current buckets, and the overall finality flag
(`this.#activeWorkerCount == 0`). -/
structure Snapshot (α : Type) where
  requestId : Nat
  solutions : Buckets α
  isFinalOverall : Bool
  deriving Repr, DecidableEq

/-- The aggregator state owned by a `SolverPool` instance.
`workerCount` is `this.#workers.length`, fixed at construction;
`activeRequestId` is `#activeRequestId` (`number | null`);
`activeWorkerCount` is `#activeWorkerCount` (a JS number, so modelled as an
integer: the code only ever subtracts from it). -/
structure AggState (α : Type) where
  workerCount : Nat
  activeRequestId : Option Nat
  activeWorkerCount : Int
  solutions : Buckets α
  deriving Repr, DecidableEq

/-- Model of `SolverPool.sendSolutionsRequest`: record the new active request id, reset
the stored solutions, and re-initialize the pending-worker count to the pool
size.  (The `ValidWordsRequest` it posts to one worker carries no aggregator
state and is not needed by the claims.) -/
def sendSolutionsRequest {α : Type} (st : AggState α) (requestId : Nat) : AggState α :=
  { st with
    activeRequestId := some requestId
    solutions := emptyBuckets α
    activeWorkerCount := (st.workerCount : Int) }

/-!
Work partitioning.  Both the pool (dividing the candidate list among the
workers) and a worker (dividing its range into sub-range chunks) run the same
loop shape: a running `start` cursor, a base slice size, and one extra element
for the first `extra` indices.  `rangeSplitGo` is that loop, parameterised by
the base size and the remainder; each call site instantiates it with the
quotient and remainder its source computes.
-/

/-- The shared loop body: for each index `i` of the given list, produce the
half-open range starting at the cursor of size `base + (i < extra ? 1 : 0)`,
then advance the cursor to that range's end. -/
def rangeSplitGo (base extra : Nat) : List Nat → Nat → List (Nat × Nat)
  | [], _ => []
  | i :: rest, start =>
    let rangeEnd := start + base + (if i < extra then 1 else 0)
    (start, rangeEnd) :: rangeSplitGo base extra rest rangeEnd

/-- The range assignment the pool performs in the `ValidWordsResponse` branch
of `#handleWorkerMessage`: `sliceSize = floor(wordCount / solverCount)`,
`remainder = wordCount % solverCount`, one range per worker index, each
starting where the previous ended. -/
def assignRanges (wordCount solverCount : Nat) : List (Nat × Nat) :=
  rangeSplitGo (wordCount / solverCount) (wordCount % solverCount)
    (List.range solverCount) 0

/-- The cursor value of `rangeSplitGo base extra` before index `i`, starting
from 0: the end offset of the first `i` produced ranges. -/
def splitOff (base extra : Nat) : Nat → Nat
  | 0 => 0
  | i + 1 => splitOff base extra i + base + (if i < extra then 1 else 0)

/-!
The pool's message dispatcher, `SolverPool.#handleWorkerMessage`.  It returns
the new aggregator state, the list of `SolutionsUpdated` snapshots it
dispatches, and the list of `SolutionsRequest` messages it posts to workers;
an unknown `type` tag is a thrown `Error`, modelled as `Except.error`.  The
`ValidWordsResponse` branch posts its requests from inside per-worker
`ready.then` callbacks; the embedding models the in-order execution of those
callbacks (each also re-checks the active id, which at that point is still the
one that was just checked, so the guard is modelled once).
-/

/-- Model of `SolverPool.#handleWorkerMessage`, one message. -/
def handleWorkerMessage {α : Type} (st : AggState α) (msg : PoolMsg α) :
    Except String (AggState α × List (Snapshot α) × List SolutionsRequestMsg) :=
  match msg with
  | .wasmInitialized =>
    -- resolves the worker's ready promise; no aggregator state change
    .ok (st, [], [])
  | .validWordsResponse requestId wordCount =>
    if st.activeRequestId = some requestId then
      .ok (st, [],
        (assignRanges wordCount st.workerCount).map
          (fun r => ⟨requestId, r.1, r.2⟩))
    else
      -- this request is no longer relevant
      .ok (st, [], [])
  | .solutionsResponse resp =>
    if st.activeRequestId = some resp.requestId then
      let solutions := appendBuckets st.solutions resp.payload
      let pending :=
        if resp.isFinalResponse then st.activeWorkerCount - 1 else st.activeWorkerCount
      let st' := { st with solutions := solutions, activeWorkerCount := pending }
      .ok (st', [⟨resp.requestId, solutions, decide (pending = 0)⟩], [])
    else
      -- this request is no longer relevant
      .ok (st, [], [])
  | .unknown tag =>
    .error ("Unknown message received from worker: " ++ tag)

/-- The `SolutionsResponse` branch of `#handleWorkerMessage` in isolation.
This branch never throws, so it is a total state-transition function; the
lemma `handleWorkerMessage_solutionsResponse` ties it back to the dispatcher. -/
def stepEmission {α : Type} (st : AggState α) (resp : SolutionsResponse α) :
    AggState α × List (Snapshot α) :=
  if st.activeRequestId = some resp.requestId then
    let solutions := appendBuckets st.solutions resp.payload
    let pending :=
      if resp.isFinalResponse then st.activeWorkerCount - 1 else st.activeWorkerCount
    ({ st with solutions := solutions, activeWorkerCount := pending },
     [⟨resp.requestId, solutions, decide (pending = 0)⟩])
  else
    (st, [])

/-- Processing a sequence of worker emissions, collecting every snapshot the
aggregator publishes along the way. -/
def runEmissions {α : Type} (st : AggState α) :
    List (SolutionsResponse α) → AggState α × List (Snapshot α)
  | [] => (st, [])
  | resp :: rest =>
    let step := stepEmission st resp
    let run := runEmissions step.1 rest
    (run.1, step.2 ++ run.2)

/-!
The solver worker (`self.onmessage` of `solver.worker.mjs`).  The WASM calls
(`wasm.registerValidWords`, `wasm.solutions`, `wasm.clearValidWords`) are
external generated code; `wasm.solutions(start, end)` is abstracted as a
function `solve : Nat → Nat → Buckets α`.  The worker's global
`activeRequestId` is mutated whenever another message is handled during one of
the `await waitForTick()` suspensions; the value it holds at the yield point
following chunk `index` is supplied by a schedule `observed : Nat → Nat`.
-/

/-- The `sections` count of the `SolutionsRequest` handler:
`Math.min(range, 4)` where `range = rangeEnd - rangeStart`. -/
def workerSections (rangeStart rangeEnd : Nat) : Nat :=
  min (rangeEnd - rangeStart) 4

/-- The sub-range bounds computed by the worker's chunking loop
(`baseSize = floor(range / sections)`, `extra = range % sections`, cursor
`start` advanced after each chunk), for a non-empty range. -/
def chunkRanges (rangeStart rangeEnd : Nat) : List (Nat × Nat) :=
  let range := rangeEnd - rangeStart
  let sections := workerSections rangeStart rangeEnd
  rangeSplitGo (range / sections) (range % sections) (List.range sections) rangeStart

/-- The `baseSize` of the worker's chunking loop: `floor(range / sections)`. -/
def workerBaseSize (rangeStart rangeEnd : Nat) : Nat :=
  (rangeEnd - rangeStart) / workerSections rangeStart rangeEnd

/-- The `extra` of the worker's chunking loop: `range % sections`. -/
def workerExtra (rangeStart rangeEnd : Nat) : Nat :=
  (rangeEnd - rangeStart) % workerSections rangeStart rangeEnd

/-- The boundary of the worker's `j`-th sub-range chunk: the cursor value of
the chunking loop before section index `j`. -/
def chunkOff (rangeStart rangeEnd j : Nat) : Nat :=
  rangeStart + splitOff (workerBaseSize rangeStart rangeEnd)
    (workerExtra rangeStart rangeEnd) j

/-- The worker's chunk-emission loop: for each section index, emit one
`SolutionsResponse` holding `solve start end` with `isFinalResponse` set
exactly on the last section, then yield; if the observed active request id at
that yield point differs from this request's id, abandon the remaining
sections. -/
def solutionsLoop {α : Type} (requestId base extra sections : Nat)
    (observed : Nat → Nat) (solve : Nat → Nat → Buckets α) :
    List Nat → Nat → List (SolutionsResponse α)
  | [], _ => []
  | index :: rest, start =>
    let size := base + (if index < extra then 1 else 0)
    let rangeEnd := start + size
    let msg : SolutionsResponse α :=
      ⟨requestId, decide (index = sections - 1), solve start rangeEnd⟩
    msg ::
      (if observed index = requestId then
        solutionsLoop requestId base extra sections observed solve rest rangeEnd
      else
        -- this request is no longer relevant: abandon the remainder
        [])

/-- The `SolutionsRequest` branch of the worker's `self.onmessage`: returns
the emitted `SolutionsResponse` messages and the `console.error` log lines.
An empty (or reversed) range is rejected with an error log and no emission;
natural subtraction makes `rangeEnd - rangeStart = 0` cover both `lo == hi`
and `lo > hi`, as the JS comparison `range <= 0` does. -/
def solutionsRequestRun {α : Type} (requestId rangeStart rangeEnd : Nat)
    (observed : Nat → Nat) (solve : Nat → Nat → Buckets α) :
    List (SolutionsResponse α) × List String :=
  let range := rangeEnd - rangeStart
  if range = 0 then
    ([], ["Invalid range: rangeStart must be less than rangeEnd"])
  else
    let sections := min range 4
    (solutionsLoop requestId (range / sections) (range % sections) sections
       observed solve (List.range sections) rangeStart,
     [])

/-- The messages a solver worker can receive from the main thread, tagged as
in the source by their `type` string; `unknown` stands for any other tag. -/
inductive WorkerMsg where
  | initWasmRequest
  | validWordsRequest (requestId : Nat) (text : String)
  | solutionsRequest (req : SolutionsRequestMsg)
  | unknown (tag : String)
  deriving Repr, DecidableEq

/-- The worker's module-level mutable state. -/
structure WorkerState where
  wasmInitialized : Bool
  activeRequestId : Option Nat
  deriving Repr, DecidableEq

/-- The solver worker's `self.onmessage` dispatcher.  Returns the new worker
state, the messages posted back to the pool, and the `console.error` log
lines; an unknown `type` tag is a thrown `Error`, modelled as `Except.error`.
`getValidWords` abstracts `wasm.getValidWords` (only its word count matters to
the model) and `solve`/`observed` parameterise the `SolutionsRequest` branch
as in `solutionsRequestRun`. -/
def workerHandle {α : Type} (getValidWords : String → Nat)
    (observed : Nat → Nat) (solve : Nat → Nat → Buckets α)
    (st : WorkerState) (msg : WorkerMsg) :
    Except String (WorkerState × List (PoolMsg α) × List String) :=
  match msg with
  | .initWasmRequest =>
    if st.wasmInitialized then
      -- already initialized; no need to re-initialize
      .ok (st, [], [])
    else
      .ok ({ st with wasmInitialized := true }, [.wasmInitialized], [])
  | .validWordsRequest requestId text =>
    if st.wasmInitialized then
      .ok ({ st with activeRequestId := some requestId },
        [.validWordsResponse requestId (getValidWords text)], [])
    else
      .ok (st, [], ["WASM module is not initialized"])
  | .solutionsRequest req =>
    if st.wasmInitialized then
      let run := solutionsRequestRun req.requestId req.rangeStart req.rangeEnd
        observed solve
      .ok ({ st with activeRequestId := some req.requestId },
        run.1.map .solutionsResponse, run.2)
    else
      .ok (st, [], ["WASM module is not initialized"])
  | .unknown tag =>
    .error ("Unknown message received from main thread: " ++ tag)

/-!
Solver-count selection: `maybeGetSolverCountFromUrl` in the page script and
the `SolverPool` constructor's default `Math.min(16, navigator.hardwareConcurrency)`.
The outcome of `parseInt(urlParams.get("solvers"), 10)` is modelled as an
`Option Int`, `none` standing for `NaN` (missing or non-numeric parameter).
-/

/-- Model of `maybeGetSolverCountFromUrl`: discard the parsed `solvers` parameter when
it is `NaN` or non-positive, otherwise keep it. -/
def maybeGetSolverCountFromUrl (parsed : Option Int) : Option Int :=
  match parsed with
  | none => none
  | some solvers => if solvers ≤ 0 then none else some solvers

/-- Model of `SolverPool.#defaultSolverCount`, that is `Math.min(16, navigator.hardwareConcurrency)`,
with the hardware parallelism as a parameter. -/
def defaultSolverCount (hardwareConcurrency : Nat) : Nat :=
  min 16 hardwareConcurrency

/-- The worker count the page's `new SolverPool(maybeGetSolverCountFromUrl())`
ends up constructing: the constructor's default applies exactly when the URL
override was discarded. -/
def constructedSolverCount (parsed : Option Int) (hardwareConcurrency : Nat) : Int :=
  match maybeGetSolverCountFromUrl parsed with
  | none => (defaultSolverCount hardwareConcurrency : Int)
  | some solvers => solvers

/-!
The sort worker's `sortSolutions`.  JS primitives are modelled as follows:
`solution.split(" ")` by a structural splitter on the character list;
`lhsWord.length - rhsWord.length` (a numeric comparator result) by an
`Ordering` produced from the two lengths; `localeCompare` (on the uppercase
ASCII words the solver emits) by lexicographic comparison of the code points;
`Array.prototype.sort` by a stable sort with respect to the comparator.
-/

/-- JS numeric-comparator outcome for `a - b` on the naturals `a`, `b`:
negative, zero or positive becomes `.lt`, `.eq` or `.gt`. -/
def cmpNat (a b : Nat) : Ordering :=
  if a < b then .lt else if b < a then .gt else .eq

/-- Model of `localeCompare` on single characters: compare code points. -/
def charCmp (c d : Char) : Ordering := cmpNat c.toNat d.toNat

/-- Sequencing of two comparator outcomes: the second is consulted only when
the first is a tie (the `if (diff !== 0) return diff` idiom). -/
def thenCmp (o1 o2 : Ordering) : Ordering :=
  match o1 with
  | .eq => o2
  | o => o

/-- Generic lexicographic comparison of two lists by an element comparator;
the shorter list precedes when it is a strict prefix-tie. -/
def cmpList {α : Type} (cmp : α → α → Ordering) : List α → List α → Ordering
  | [], [] => .eq
  | [], _ :: _ => .lt
  | _ :: _, [] => .gt
  | x :: xs, y :: ys =>
    match cmp x y with
    | .eq => cmpList cmp xs ys
    | o => o

/-- Model of `localeCompare` on words: lexicographic by code point. -/
def cmpChars (cs ds : List Char) : Ordering := cmpList charCmp cs ds

/-- The per-word comparison of the `sortSolutions` comparator body: first the
length difference, then `localeCompare` when the lengths tie. -/
def cmpWord (lhsWord rhsWord : String) : Ordering :=
  thenCmp (cmpNat lhsWord.length rhsWord.length) (cmpChars lhsWord.data rhsWord.data)

/-- The `sortSolutions` comparator loop over `index < lhsWords.length`.
`none` models the `TypeError` the JS comparator would hit reading
`rhsWords[index].length` when the right solution has fewer words; when the
left one has fewer, the loop simply ends and returns `0`, as in the source.
Under the documented precondition that all solutions in one list have the
same word count, `none` never occurs. -/
def cmpWords : List String → List String → Option Ordering
  | [], _ => some .eq
  | _ :: _, [] => none
  | lhsWord :: lhs, rhsWord :: rhs =>
    match cmpWord lhsWord rhsWord with
    | .eq => cmpWords lhs rhs
    | o => some o

/-- Model of `solution.split(" ")`: cut the character list at every space
(the solver's solutions contain single spaces between words). -/
def splitWordsAux : List Char → List Char → List (List Char)
  | [], acc => [acc.reverse]
  | c :: cs, acc =>
    if c = ' ' then acc.reverse :: splitWordsAux cs []
    else splitWordsAux cs (c :: acc)

/-- The `words` field the source computes for each solution. -/
def wordsOf (solution : String) : List String :=
  (splitWordsAux solution.data []).map (fun cs => String.mk cs)

/-- The comparator passed to `.sort`, as a boolean "does not come after"
relation: `false` exactly when the comparator returns a positive number (or
would fault, which the same-word-count precondition excludes). -/
def solutionLe (lhs rhs : String) : Bool :=
  match cmpWords (wordsOf lhs) (wordsOf rhs) with
  | some .gt => false
  | none => false
  | _ => true

/-- Model of `sortSolutions`: sort the solution strings with the word-by-word
comparator.  `Array.prototype.sort` is modelled by a stable sort with respect
to the comparator (insertion sort). -/
def sortSolutions (solutions : List String) : List String :=
  List.insertionSort (fun lhs rhs => solutionLe lhs rhs = true) solutions

/-!
Comparator laws.  `LawfulCmp` packages the three properties each comparator
layer satisfies: antisymmetric swap, congruence of ties, and transitivity of
strict outcomes.  Totality and transitivity of the derived "not-after"
relation follow generically.
-/

/-- A comparator that behaves like a total preorder comparison. -/
structure LawfulCmp {α : Type} (cmp : α → α → Ordering) : Prop where
  swap_eq : ∀ a b, cmp b a = (cmp a b).swap
  eq_congr : ∀ a b c, cmp a b = .eq → cmp a c = cmp b c
  lt_trans : ∀ a b c, cmp a b = .lt → cmp b c = .lt → cmp a c = .lt

theorem splitOff_closed (base extra i : Nat) :
    splitOff base extra i = i * base + min i extra := by
  induction i with
  | zero => simp [splitOff]
  | succ i ih =>
    simp only [splitOff, ih, Nat.succ_mul]
    rcases Nat.lt_or_ge i extra with h | h
    · rw [if_pos h, Nat.min_eq_left (by omega), Nat.min_eq_left (by omega)]
      omega
    · rw [if_neg (by omega), Nat.min_eq_right h, Nat.min_eq_right (by omega)]
      omega

theorem splitOff_le_succ (base extra i : Nat) :
    splitOff base extra i ≤ splitOff base extra (i + 1) := by
  simp only [splitOff]
  split <;> omega

theorem splitOff_mono (base extra : Nat) : Monotone (splitOff base extra) :=
  monotone_nat_of_le_succ (splitOff_le_succ base extra)

/-- Running `rangeSplitGo` over a contiguous index block, started at the matching
cursor value `c + splitOff i`, produces exactly the ranges
`[c + splitOff j, c + splitOff (j+1))`. -/
theorem rangeSplitGo_range' (base extra c : Nat) :
    ∀ (m i : Nat),
      rangeSplitGo base extra (List.range' i m) (c + splitOff base extra i) =
        (List.range' i m).map
          (fun j => (c + splitOff base extra j, c + splitOff base extra (j + 1))) := by
  intro m
  induction m with
  | zero => intro i; simp [rangeSplitGo]
  | succ m ih =>
    intro i
    have hcur : c + splitOff base extra i + base + (if i < extra then 1 else 0) =
        c + splitOff base extra (i + 1) := by
      simp only [splitOff]
      omega
    simp only [List.range'_succ, rangeSplitGo, List.map_cons, hcur]
    exact congrArg _ (ih (i + 1))

theorem assignRanges_eq_map (wordCount solverCount : Nat) :
    assignRanges wordCount solverCount =
      (List.range solverCount).map
        (fun j => (splitOff (wordCount / solverCount) (wordCount % solverCount) j,
                   splitOff (wordCount / solverCount) (wordCount % solverCount) (j + 1))) := by
  have h := rangeSplitGo_range' (wordCount / solverCount) (wordCount % solverCount)
    0 solverCount 0
  simpa [assignRanges, List.range_eq_range', splitOff] using h

/-- The total of all `k` slice sizes is exactly `n` (needs `1 ≤ k` so that
`n % k < k`). -/
theorem splitOff_total (n k : Nat) (hk : 1 ≤ k) :
    splitOff (n / k) (n % k) k = n := by
  have hmod : n % k < k := Nat.mod_lt _ hk
  have hdiv := Nat.div_add_mod n k
  rw [splitOff_closed]
  omega

/-- Existence half of the covering property: every `m < splitOff ... j` lies
in one of the first `j` ranges. -/
theorem splitOff_mem (base extra : Nat) (m : Nat) :
    ∀ j, m < splitOff base extra j →
      ∃ i, i < j ∧ splitOff base extra i ≤ m ∧ m < splitOff base extra (i + 1) := by
  intro j
  induction j with
  | zero => intro h; simp [splitOff] at h
  | succ j ih =>
    intro h
    rcases Nat.lt_or_ge m (splitOff base extra j) with h' | h'
    · obtain ⟨i, hi, h1, h2⟩ := ih h'
      exact ⟨i, Nat.lt_succ_of_lt hi, h1, h2⟩
    · exact ⟨j, Nat.lt_succ_self j, h', h⟩

theorem handleWorkerMessage_solutionsResponse {α : Type} (st : AggState α)
    (resp : SolutionsResponse α) :
    handleWorkerMessage st (.solutionsResponse resp) =
      .ok ((stepEmission st resp).1, (stepEmission st resp).2, []) := by
  simp only [handleWorkerMessage, stepEmission]
  split <;> rfl

theorem LawfulCmp.eq_refl {α : Type} {cmp : α → α → Ordering}
    (h : LawfulCmp cmp) (a : α) : cmp a a = .eq := by
  have hs := h.swap_eq a a
  cases hc : cmp a a with
  | lt => rw [hc] at hs; exact absurd hs (by decide)
  | eq => rfl
  | gt => rw [hc] at hs; exact absurd hs (by decide)

theorem LawfulCmp.eq_symm {α : Type} {cmp : α → α → Ordering}
    (h : LawfulCmp cmp) {a b : α} (hab : cmp a b = .eq) : cmp b a = .eq := by
  rw [h.swap_eq a b, hab]
  rfl

theorem LawfulCmp.eq_congr_right {α : Type} {cmp : α → α → Ordering}
    (h : LawfulCmp cmp) {b c : α} (hbc : cmp b c = .eq) (a : α) :
    cmp a b = cmp a c := by
  have hcb : cmp c b = .eq := h.eq_symm hbc
  have h2 : cmp c a = cmp b a := h.eq_congr c b a hcb
  rw [h.swap_eq b a, h.swap_eq c a, h2]

theorem LawfulCmp.le_trans {α : Type} {cmp : α → α → Ordering}
    (h : LawfulCmp cmp) {a b c : α}
    (hab : cmp a b ≠ .gt) (hbc : cmp b c ≠ .gt) : cmp a c ≠ .gt := by
  cases h1 : cmp a b with
  | gt => exact absurd h1 hab
  | eq => rw [h.eq_congr a b c h1]; exact hbc
  | lt =>
    cases h2 : cmp b c with
    | gt => exact absurd h2 hbc
    | eq => rw [← h.eq_congr_right h2 a]; exact hab
    | lt => rw [h.lt_trans a b c h1 h2]; simp

theorem LawfulCmp.le_total {α : Type} {cmp : α → α → Ordering}
    (h : LawfulCmp cmp) (a b : α) : cmp a b ≠ .gt ∨ cmp b a ≠ .gt := by
  cases hc : cmp a b with
  | lt => left; simp [hc]
  | eq => left; simp [hc]
  | gt =>
    right
    rw [h.swap_eq a b, hc]
    decide

theorem LawfulCmp.comap {α β : Type} {cmp : α → α → Ordering}
    (h : LawfulCmp cmp) (f : β → α) :
    LawfulCmp (fun x y => cmp (f x) (f y)) :=
  ⟨fun a b => h.swap_eq (f a) (f b),
   fun a b c hab => h.eq_congr (f a) (f b) (f c) hab,
   fun a b c => h.lt_trans (f a) (f b) (f c)⟩

theorem thenCmp_swap (o1 o2 : Ordering) :
    thenCmp o1.swap o2.swap = (thenCmp o1 o2).swap := by
  cases o1 <;> rfl

theorem thenCmp_eq_iff (o1 o2 : Ordering) :
    thenCmp o1 o2 = .eq ↔ o1 = .eq ∧ o2 = .eq := by
  cases o1 <;> simp [thenCmp]

theorem thenCmp_lt_iff (o1 o2 : Ordering) :
    thenCmp o1 o2 = .lt ↔ o1 = .lt ∨ (o1 = .eq ∧ o2 = .lt) := by
  cases o1 <;> simp [thenCmp]

theorem LawfulCmp.thenCombine {α : Type} {cmp1 cmp2 : α → α → Ordering}
    (h1 : LawfulCmp cmp1) (h2 : LawfulCmp cmp2) :
    LawfulCmp (fun a b => thenCmp (cmp1 a b) (cmp2 a b)) := by
  refine ⟨?_, ?_, ?_⟩
  · intro a b
    rw [h1.swap_eq a b, h2.swap_eq a b, thenCmp_swap]
  · intro a b c hab
    rw [thenCmp_eq_iff] at hab
    rw [h1.eq_congr a b c hab.1, h2.eq_congr a b c hab.2]
  · intro a b c hab hbc
    rw [thenCmp_lt_iff] at hab hbc ⊢
    rcases hab with hab | ⟨hab, hab2⟩ <;> rcases hbc with hbc | ⟨hbc, hbc2⟩
    · exact Or.inl (h1.lt_trans a b c hab hbc)
    · exact Or.inl (by rw [← h1.eq_congr_right hbc a]; exact hab)
    · exact Or.inl (by rw [h1.eq_congr a b c hab]; exact hbc)
    · refine Or.inr ⟨by rw [h1.eq_congr a b c hab]; exact hbc, ?_⟩
      exact h2.lt_trans a b c hab2 hbc2

theorem cmpNat_eq_iff (a b : Nat) : cmpNat a b = .eq ↔ a = b := by
  unfold cmpNat
  split_ifs <;> simp <;> omega

theorem cmpNat_lt_iff (a b : Nat) : cmpNat a b = .lt ↔ a < b := by
  unfold cmpNat
  split_ifs <;> simp <;> omega

theorem lawful_cmpNat : LawfulCmp cmpNat := by
  refine ⟨?_, ?_, ?_⟩
  · intro a b
    unfold cmpNat
    split_ifs <;> first | rfl | omega
  · intro a b c hab
    rw [cmpNat_eq_iff] at hab
    rw [hab]
  · intro a b c hab hbc
    rw [cmpNat_lt_iff] at hab hbc ⊢
    omega

theorem lawful_charCmp : LawfulCmp charCmp :=
  lawful_cmpNat.comap Char.toNat

theorem cmpList_swap {α : Type} {cmp : α → α → Ordering} (h : LawfulCmp cmp) :
    ∀ xs ys : List α, cmpList cmp ys xs = (cmpList cmp xs ys).swap := by
  intro xs
  induction xs with
  | nil => intro ys; cases ys <;> rfl
  | cons x xs ih =>
    intro ys
    cases ys with
    | nil => rfl
    | cons y ys =>
      simp only [cmpList]
      rw [h.swap_eq x y]
      cases hc : cmp x y <;> simp [hc, Ordering.swap, ih ys]

theorem cmpList_eq_congr {α : Type} {cmp : α → α → Ordering} (h : LawfulCmp cmp) :
    ∀ xs ys zs : List α, cmpList cmp xs ys = .eq →
      cmpList cmp xs zs = cmpList cmp ys zs := by
  intro xs
  induction xs with
  | nil =>
    intro ys zs hxy
    cases ys with
    | nil => rfl
    | cons y ys => simp [cmpList] at hxy
  | cons x xs ih =>
    intro ys zs hxy
    cases ys with
    | nil => simp [cmpList] at hxy
    | cons y ys =>
      simp only [cmpList] at hxy
      have hx : cmp x y = .eq := by
        cases hc : cmp x y <;> rw [hc] at hxy <;> simp_all
      rw [hx] at hxy
      cases zs with
      | nil => rfl
      | cons z zs =>
        simp only [cmpList]
        rw [h.eq_congr x y z hx]
        cases hc : cmp y z <;> simp [ih ys zs hxy]

theorem cmpList_lt_trans {α : Type} {cmp : α → α → Ordering} (h : LawfulCmp cmp) :
    ∀ xs ys zs : List α, cmpList cmp xs ys = .lt → cmpList cmp ys zs = .lt →
      cmpList cmp xs zs = .lt := by
  intro xs
  induction xs with
  | nil =>
    intro ys zs hxy hyz
    cases ys with
    | nil => simp [cmpList] at hxy
    | cons y ys =>
      cases zs with
      | nil => simp [cmpList] at hyz
      | cons z zs => rfl
  | cons x xs ih =>
    intro ys zs hxy hyz
    cases ys with
    | nil => simp [cmpList] at hxy
    | cons y ys =>
      cases zs with
      | nil => simp [cmpList] at hyz
      | cons z zs =>
        simp only [cmpList] at hxy hyz ⊢
        cases hc1 : cmp x y with
        | gt => rw [hc1] at hxy; simp at hxy
        | lt =>
          cases hc2 : cmp y z with
          | gt => rw [hc2] at hyz; simp at hyz
          | lt => rw [h.lt_trans x y z hc1 hc2]
          | eq => rw [← h.eq_congr_right hc2 x, hc1]
        | eq =>
          rw [hc1] at hxy
          cases hc2 : cmp y z with
          | gt => rw [hc2] at hyz; simp at hyz
          | lt => rw [h.eq_congr x y z hc1, hc2]
          | eq =>
            rw [hc2] at hyz
            rw [h.eq_congr x y z hc1, hc2]
            exact ih ys zs hxy hyz

theorem lawful_cmpList {α : Type} {cmp : α → α → Ordering} (h : LawfulCmp cmp) :
    LawfulCmp (cmpList cmp) :=
  ⟨fun xs ys => cmpList_swap h xs ys,
   cmpList_eq_congr h,
   cmpList_lt_trans h⟩

theorem lawful_cmpChars : LawfulCmp cmpChars :=
  lawful_cmpList lawful_charCmp

theorem lawful_cmpWord : LawfulCmp cmpWord :=
  LawfulCmp.thenCombine
    (lawful_cmpNat.comap String.length)
    (lawful_cmpChars.comap String.data)

/-- On word lists of equal length — the documented precondition of the
comparator — the loop computes exactly the total lexicographic comparison. -/
theorem cmpWords_eq_cmpList :
    ∀ xs ys : List String, xs.length = ys.length →
      cmpWords xs ys = some (cmpList cmpWord xs ys) := by
  intro xs
  induction xs with
  | nil =>
    intro ys hlen
    cases ys with
    | nil => rfl
    | cons y ys => simp at hlen
  | cons x xs ih =>
    intro ys hlen
    cases ys with
    | nil => simp at hlen
    | cons y ys =>
      simp only [cmpWords, cmpList]
      cases hc : cmpWord x y <;> simp [ih ys (by simpa using hlen)]

/-- The comparator loop rejects (`some .gt`) or faults (`none`) exactly when
the total lexicographic comparison is `.gt`. -/
theorem cmpWords_gt_or_none_iff :
    ∀ xs ys : List String,
      (cmpWords xs ys = some .gt ∨ cmpWords xs ys = none) ↔
        cmpList cmpWord xs ys = .gt := by
  intro xs
  induction xs with
  | nil =>
    intro ys
    cases ys <;> simp [cmpWords, cmpList]
  | cons x xs ih =>
    intro ys
    cases ys with
    | nil => simp [cmpWords, cmpList]
    | cons y ys =>
      simp only [cmpWords, cmpList]
      cases hc : cmpWord x y <;> simp [ih ys]

theorem solutionLe_iff (lhs rhs : String) :
    solutionLe lhs rhs = true ↔ cmpList cmpWord (wordsOf lhs) (wordsOf rhs) ≠ .gt := by
  unfold solutionLe
  rcases hc : cmpWords (wordsOf lhs) (wordsOf rhs) with _ | o
  · have hgt := (cmpWords_gt_or_none_iff (wordsOf lhs) (wordsOf rhs)).mp (Or.inr hc)
    simp [hgt]
  · cases o with
    | lt =>
      have : cmpList cmpWord (wordsOf lhs) (wordsOf rhs) ≠ .gt := by
        intro hgt
        have := (cmpWords_gt_or_none_iff (wordsOf lhs) (wordsOf rhs)).mpr hgt
        rw [hc] at this
        rcases this with h | h <;> simp at h
      simp [this]
    | eq =>
      have : cmpList cmpWord (wordsOf lhs) (wordsOf rhs) ≠ .gt := by
        intro hgt
        have := (cmpWords_gt_or_none_iff (wordsOf lhs) (wordsOf rhs)).mpr hgt
        rw [hc] at this
        rcases this with h | h <;> simp at h
      simp [this]
    | gt =>
      have hgt := (cmpWords_gt_or_none_iff (wordsOf lhs) (wordsOf rhs)).mp (Or.inl hc)
      simp [hgt]

theorem solutionLe_trans (a b c : String)
    (hab : solutionLe a b = true) (hbc : solutionLe b c = true) :
    solutionLe a c = true := by
  rw [solutionLe_iff] at hab hbc ⊢
  exact (lawful_cmpList lawful_cmpWord).le_trans hab hbc

theorem solutionLe_total (a b : String) :
    solutionLe a b = true ∨ solutionLe b a = true := by
  rw [solutionLe_iff, solutionLe_iff]
  exact (lawful_cmpList lawful_cmpWord).le_total (wordsOf a) (wordsOf b)

/-!
Worker-loop lemmas.
-/

/-- An uninterrupted run of the worker's chunk loop (every yield point still
observes this request's id) emits one message per section index, in order. -/
theorem solutionsLoop_range' {α : Type} (r base extra sections : Nat)
    (observed : Nat → Nat) (hobs : ∀ j, observed j = r)
    (solve : Nat → Nat → Buckets α) (c : Nat) :
    ∀ m i,
      solutionsLoop r base extra sections observed solve (List.range' i m)
          (c + splitOff base extra i) =
        (List.range' i m).map (fun j =>
          ⟨r, decide (j = sections - 1),
            solve (c + splitOff base extra j) (c + splitOff base extra (j + 1))⟩) := by
  intro m
  induction m with
  | zero => intro i; simp [solutionsLoop]
  | succ m ih =>
    intro i
    have hcur : c + splitOff base extra i + (base + (if i < extra then 1 else 0)) =
        c + splitOff base extra (i + 1) := by
      simp only [splitOff]
      omega
    simp only [List.range'_succ, solutionsLoop, List.map_cons, hobs i,
      eq_self_iff_true, if_true, hcur]
    rw [ih (i + 1)]

/-- If the yield point after chunk `j` observes a foreign request id, at most
the chunks up to and including `j` are emitted. -/
theorem solutionsLoop_length_le {α : Type} (r base extra sections : Nat)
    (observed : Nat → Nat) (solve : Nat → Nat → Buckets α) (j : Nat)
    (hj : observed j ≠ r) :
    ∀ m i start, i ≤ j →
      (solutionsLoop r base extra sections observed solve
          (List.range' i m) start).length ≤ j + 1 - i := by
  intro m
  induction m with
  | zero => intro i start _; simp [solutionsLoop]
  | succ m ih =>
    intro i start hij
    simp only [List.range'_succ, solutionsLoop, List.length_cons]
    rcases Nat.lt_or_ge i j with hlt | hge
    · by_cases hoi : observed i = r
      · rw [if_pos hoi]
        have hrec := ih (i + 1) (start + (base + if i < extra then 1 else 0))
          (by omega)
        omega
      · rw [if_neg hoi]
        simp only [List.length_nil]
        omega
    · have heq : i = j := by omega
      subst heq
      rw [if_neg hj]
      simp only [List.length_nil]
      omega

/-- Whatever the yield points observe, the emitted messages are an initial
segment of the uninterrupted run's messages. -/
theorem solutionsLoop_take {α : Type} (r base extra sections : Nat)
    (observed : Nat → Nat) (solve : Nat → Nat → Buckets α) :
    ∀ (idxs : List Nat) (start : Nat),
      solutionsLoop r base extra sections observed solve idxs start =
        (solutionsLoop r base extra sections (fun _ => r) solve idxs start).take
          (solutionsLoop r base extra sections observed solve idxs start).length := by
  intro idxs
  induction idxs with
  | nil => intro start; rfl
  | cons i rest ih =>
    intro start
    simp only [solutionsLoop, eq_self_iff_true, if_true]
    by_cases hoi : observed i = r
    · rw [if_pos hoi]
      simp only [List.length_cons, List.take_succ_cons]
      exact congrArg _ (ih _)
    · rw [if_neg hoi]
      simp only [List.length_cons, List.length_nil, List.take_succ_cons,
        List.take_zero]

/-!
Aggregator lemmas.
-/

theorem stepEmission_accepted {α : Type} {st : AggState α}
    {resp : SolutionsResponse α} (hacc : st.activeRequestId = some resp.requestId) :
    stepEmission st resp =
      ({ st with
          solutions := appendBuckets st.solutions resp.payload
          activeWorkerCount :=
            if resp.isFinalResponse then st.activeWorkerCount - 1
            else st.activeWorkerCount },
        [⟨resp.requestId, appendBuckets st.solutions resp.payload,
          decide ((if resp.isFinalResponse then st.activeWorkerCount - 1
            else st.activeWorkerCount) = 0)⟩]) := by
  simp [stepEmission, hacc]

theorem stepEmission_dropped {α : Type} {st : AggState α}
    {resp : SolutionsResponse α} (h : st.activeRequestId ≠ some resp.requestId) :
    stepEmission st resp = (st, []) := by
  simp [stepEmission, h]

theorem stepEmission_fst_activeRequestId {α : Type} (st : AggState α)
    (resp : SolutionsResponse α) :
    (stepEmission st resp).1.activeRequestId = st.activeRequestId := by
  unfold stepEmission
  split <;> rfl

theorem totalCount_appendBuckets {α : Type} (a b : Buckets α) :
    totalCount (appendBuckets a b) = totalCount a + totalCount b := by
  simp [totalCount, bucketsElems, appendBuckets]
  omega

theorem mem_bucketsElems_appendBuckets {α : Type} (x : α) (a b : Buckets α) :
    x ∈ bucketsElems (appendBuckets a b) ↔
      x ∈ bucketsElems a ∨ x ∈ bucketsElems b := by
  simp [bucketsElems, appendBuckets, List.mem_append]
  tauto

theorem runEmissions_cons {α : Type} (st : AggState α)
    (resp : SolutionsResponse α) (rest : List (SolutionsResponse α)) :
    runEmissions st (resp :: rest) =
      ((runEmissions (stepEmission st resp).1 rest).1,
        (stepEmission st resp).2 ++ (runEmissions (stepEmission st resp).1 rest).2) := by
  rfl

/-- Provenance: every snapshot published while request `r` is active carries
id `r`, and each of its solutions either was already stored when the trace
began or arrived in an emission tagged `r`. -/
theorem runEmissions_provenance {α : Type} (r : Nat) :
    ∀ (ms : List (SolutionsResponse α)) (st : AggState α),
      st.activeRequestId = some r →
      ∀ snap ∈ (runEmissions st ms).2,
        snap.requestId = r ∧
        ∀ x ∈ bucketsElems snap.solutions,
          x ∈ bucketsElems st.solutions ∨
            ∃ m ∈ ms, m.requestId = r ∧ x ∈ bucketsElems m.payload := by
  intro ms
  induction ms with
  | nil =>
    intro st hst snap hsnap
    simp [runEmissions] at hsnap
  | cons resp rest ih =>
    intro st hst snap hsnap
    rw [runEmissions_cons] at hsnap
    simp only [List.mem_append] at hsnap
    by_cases hacc : st.activeRequestId = some resp.requestId
    · have hr : resp.requestId = r := by
        rw [hst] at hacc
        exact (Option.some_injective _ hacc.symm)
      rcases hsnap with hsnap | hsnap
      · rw [stepEmission_accepted hacc] at hsnap
        simp only [List.mem_singleton] at hsnap
        subst hsnap
        refine ⟨hr, ?_⟩
        intro x hx
        rw [mem_bucketsElems_appendBuckets] at hx
        rcases hx with hx | hx
        · exact Or.inl hx
        · exact Or.inr ⟨resp, List.mem_cons_self _ _, hr, hx⟩
      · have hst' : (stepEmission st resp).1.activeRequestId = some r := by
          rw [stepEmission_fst_activeRequestId, hst]
        obtain ⟨h1, h2⟩ := ih (stepEmission st resp).1 hst' snap hsnap
        refine ⟨h1, ?_⟩
        intro x hx
        rcases h2 x hx with hx' | ⟨m, hm, hmr, hmx⟩
        · rw [stepEmission_accepted hacc] at hx'
          simp only at hx'
          rw [mem_bucketsElems_appendBuckets] at hx'
          rcases hx' with hx' | hx'
          · exact Or.inl hx'
          · exact Or.inr ⟨resp, List.mem_cons_self _ _, hr, hx'⟩
        · exact Or.inr ⟨m, List.mem_cons_of_mem _ hm, hmr, hmx⟩
    · rw [stepEmission_dropped hacc] at hsnap
      simp only [List.not_mem_nil, false_or] at hsnap
      obtain ⟨h1, h2⟩ := ih st hst snap hsnap
      refine ⟨h1, ?_⟩
      intro x hx
      rcases h2 x hx with hx' | ⟨m, hm, hmr, hmx⟩
      · exact Or.inl hx'
      · exact Or.inr ⟨m, List.mem_cons_of_mem _ hm, hmr, hmx⟩

/-- Cumulative counts: the stored solution count never decreases along a
trace, and the counts of successively published snapshots are sorted. -/
theorem runEmissions_counts {α : Type} :
    ∀ (ms : List (SolutionsResponse α)) (st : AggState α),
      totalCount st.solutions ≤ totalCount ((runEmissions st ms).1).solutions ∧
      (∀ snap ∈ (runEmissions st ms).2,
        totalCount st.solutions ≤ totalCount snap.solutions ∧
        totalCount snap.solutions ≤ totalCount ((runEmissions st ms).1).solutions) ∧
      ((runEmissions st ms).2.map (fun snap => totalCount snap.solutions)).Pairwise
        (· ≤ ·) := by
  intro ms
  induction ms with
  | nil =>
    intro st
    simp [runEmissions]
  | cons resp rest ih =>
    intro st
    rw [runEmissions_cons]
    by_cases hacc : st.activeRequestId = some resp.requestId
    · rw [stepEmission_accepted hacc]
      simp only [List.singleton_append, List.map_cons, List.pairwise_cons,
        List.mem_cons]
      set st' : AggState α :=
        { st with
          solutions := appendBuckets st.solutions resp.payload
          activeWorkerCount :=
            if resp.isFinalResponse then st.activeWorkerCount - 1
            else st.activeWorkerCount } with hst'
      have hgrow : totalCount st.solutions ≤ totalCount st'.solutions := by
        rw [hst']
        simp only [totalCount_appendBuckets]
        omega
      obtain ⟨ihA, ihB, ihC⟩ := ih st'
      have hsnap0 : totalCount
          (appendBuckets st.solutions resp.payload) = totalCount st'.solutions := rfl
      refine ⟨le_trans hgrow ihA, ?_, ?_⟩
      · intro snap hsnap
        rcases hsnap with hsnap | hsnap
        · subst hsnap
          exact ⟨hgrow, ihA⟩
        · obtain ⟨h1, h2⟩ := ihB snap hsnap
          exact ⟨le_trans hgrow h1, h2⟩
      · refine ⟨?_, ihC⟩
        intro c hc
        rw [List.mem_map] at hc
        obtain ⟨snap, hsnap, rfl⟩ := hc
        exact (ihB snap hsnap).1
    · rw [stepEmission_dropped hacc]
      simp only [List.nil_append]
      exact ih st

/-!
Claim theorems.
-/

/-- Claim C1, refuted at the concrete empty range `[3, 3)`: a
`SolutionsRequest` whose assigned range is empty does not produce a final
zero-solution chunk; the worker logs the invalid-range error and returns
without emitting anything, so the pool's pending-worker count for that worker
is never decremented. -/
theorem C1_empty_range_no_emission :
    solutionsRequestRun (α := Nat) 7 3 3 (fun _ => 7) (fun _ _ => emptyBuckets Nat) =
      ([], ["Invalid range: rangeStart must be less than rangeEnd"]) := rfl

/-- Claim C2: on a `ValidWordsResponse` for `n` candidate words and `k ≥ 1`
workers, the pool produces exactly `k` contiguous, half-open, non-overlapping
ranges `[splitOff j, splitOff (j+1))` covering `[0, n)`, the first `n mod k`
of size `floor(n / k) + 1` and the rest of size `floor(n / k)`. -/
theorem C2_range_assignment (n k : Nat) (hk : 1 ≤ k) :
    (assignRanges n k).length = k
    ∧ assignRanges n k =
        (List.range k).map (fun j =>
          (splitOff (n / k) (n % k) j, splitOff (n / k) (n % k) (j + 1)))
    ∧ splitOff (n / k) (n % k) 0 = 0
    ∧ splitOff (n / k) (n % k) k = n
    ∧ (∀ j, splitOff (n / k) (n % k) (j + 1)
          = splitOff (n / k) (n % k) j + n / k + (if j < n % k then 1 else 0))
    ∧ (∀ i j, i ≤ j → splitOff (n / k) (n % k) i ≤ splitOff (n / k) (n % k) j)
    ∧ (∀ m, m < n ↔ ∃ i, i < k ∧ splitOff (n / k) (n % k) i ≤ m
          ∧ m < splitOff (n / k) (n % k) (i + 1)) := by
  refine ⟨?_, assignRanges_eq_map n k, rfl, splitOff_total n k hk, ?_, ?_, ?_⟩
  · rw [assignRanges_eq_map]
    simp
  · intro j
    simp [splitOff]
  · intro i j hij
    exact splitOff_mono _ _ hij
  · intro m
    constructor
    · intro hm
      exact splitOff_mem (n / k) (n % k) m k (by rw [splitOff_total n k hk]; exact hm)
    · rintro ⟨i, hik, h1, h2⟩
      have hle : splitOff (n / k) (n % k) (i + 1) ≤ splitOff (n / k) (n % k) k :=
        splitOff_mono _ _ (by omega)
      rw [splitOff_total n k hk] at hle
      omega

/-- Witness for C2 at `n = 5`, `k = 2`: the two assigned ranges together
cover exactly `[0, 5)`. -/
theorem C2_range_assignment_witness :
    splitOff (5 / 2) (5 % 2) 2 = 5 :=
  (C2_range_assignment 5 2 (by decide)).2.2.2.1

/-- Counterexample to claim C3 as stated: for the range `[0, 5)` the worker
produces `min(5, 4) = 4` sub-ranges of sizes 2, 1, 1, 1 — contiguous and
disjoint, but not equal-sized. -/
theorem C3_counterexample :
    chunkRanges 0 5 = [(0, 2), (2, 3), (3, 4), (4, 5)]
    ∧ ¬ ∃ s, ∀ p ∈ chunkRanges 0 5, p.2 - p.1 = s := by
  refine ⟨by decide, ?_⟩
  rintro ⟨s, hs⟩
  have h1 := hs (0, 2) (by decide)
  have h2 := hs (2, 3) (by decide)
  simp at h1 h2
  omega

/-- Claim C3 as amended: for a non-empty range `[lo, hi)` whose yield points
all still observe this request, the worker emits exactly
`min(hi − lo, 4)` chunks, one per sub-range, each tagged with the request id,
`isFinalResponse` exactly on the last; the sub-ranges are contiguous,
non-overlapping, cover `[lo, hi)`, and their sizes differ by at most one (the
first `range mod sections` are one element larger), rather than being all
equal. -/
theorem C3_chunk_emission {α : Type} (r lo hi : Nat) (hlt : lo < hi)
    (observed : Nat → Nat) (solve : Nat → Nat → Buckets α)
    (hobs : ∀ j, observed j = r) :
    (solutionsRequestRun r lo hi observed solve).1 =
      (List.range (workerSections lo hi)).map (fun j =>
        ⟨r, decide (j = workerSections lo hi - 1),
          solve (chunkOff lo hi j) (chunkOff lo hi (j + 1))⟩)
    ∧ (solutionsRequestRun r lo hi observed solve).2 = []
    ∧ workerSections lo hi = min (hi - lo) 4
    ∧ 1 ≤ workerSections lo hi
    ∧ ((solutionsRequestRun r lo hi observed solve).1).length = workerSections lo hi
    ∧ chunkRanges lo hi =
        (List.range (workerSections lo hi)).map
          (fun j => (chunkOff lo hi j, chunkOff lo hi (j + 1)))
    ∧ chunkOff lo hi 0 = lo
    ∧ chunkOff lo hi (workerSections lo hi) = hi
    ∧ (∀ j, chunkOff lo hi (j + 1)
          = chunkOff lo hi j + workerBaseSize lo hi
              + (if j < workerExtra lo hi then 1 else 0))
    ∧ (∀ i j, i ≤ j → chunkOff lo hi i ≤ chunkOff lo hi j)
    ∧ (∀ m, (lo ≤ m ∧ m < hi) ↔ ∃ i, i < workerSections lo hi
          ∧ chunkOff lo hi i ≤ m ∧ m < chunkOff lo hi (i + 1)) := by
  have hrange : ¬ hi - lo = 0 := by omega
  have hsec : 1 ≤ workerSections lo hi := by
    unfold workerSections
    omega
  have hmod : workerExtra lo hi < workerSections lo hi :=
    Nat.mod_lt _ hsec
  have htot : splitOff (workerBaseSize lo hi) (workerExtra lo hi)
      (workerSections lo hi) = hi - lo := by
    rw [splitOff_closed, Nat.min_eq_right (le_of_lt hmod)]
    have hdm := Nat.div_add_mod (hi - lo) (workerSections lo hi)
    unfold workerBaseSize workerExtra
    omega
  have hrun1 : (solutionsRequestRun r lo hi observed solve).1 =
      (List.range (workerSections lo hi)).map (fun j =>
        ⟨r, decide (j = workerSections lo hi - 1),
          solve (chunkOff lo hi j) (chunkOff lo hi (j + 1))⟩) := by
    have h := solutionsLoop_range' r (workerBaseSize lo hi) (workerExtra lo hi)
      (workerSections lo hi) observed hobs solve lo (workerSections lo hi) 0
    unfold solutionsRequestRun
    rw [if_neg hrange]
    unfold chunkOff
    unfold workerBaseSize workerExtra workerSections at h ⊢
    simpa [splitOff, List.range_eq_range'] using h
  have hranges : chunkRanges lo hi =
      (List.range (workerSections lo hi)).map
        (fun j => (chunkOff lo hi j, chunkOff lo hi (j + 1))) := by
    have h := rangeSplitGo_range' (workerBaseSize lo hi) (workerExtra lo hi)
      lo (workerSections lo hi) 0
    unfold chunkRanges
    unfold chunkOff
    unfold workerBaseSize workerExtra workerSections at h ⊢
    simpa [splitOff, List.range_eq_range'] using h
  refine ⟨hrun1, ?_, rfl, hsec, ?_, hranges, ?_, ?_, ?_, ?_, ?_⟩
  · unfold solutionsRequestRun
    rw [if_neg hrange]
  · rw [hrun1]
    simp
  · unfold chunkOff
    simp [splitOff]
  · unfold chunkOff
    rw [htot]
    omega
  · intro j
    unfold chunkOff
    simp only [splitOff]
    omega
  · intro i j hij
    unfold chunkOff
    have := splitOff_mono (workerBaseSize lo hi) (workerExtra lo hi) hij
    omega
  · intro m
    constructor
    · intro hm
      obtain ⟨i, hik, h1, h2⟩ := splitOff_mem (workerBaseSize lo hi)
        (workerExtra lo hi) (m - lo) (workerSections lo hi) (by omega)
      refine ⟨i, hik, ?_, ?_⟩ <;> unfold chunkOff <;> omega
    · rintro ⟨i, hik, h1, h2⟩
      have hle : splitOff (workerBaseSize lo hi) (workerExtra lo hi) (i + 1) ≤
          splitOff (workerBaseSize lo hi) (workerExtra lo hi)
            (workerSections lo hi) :=
        splitOff_mono _ _ (by omega)
      rw [htot] at hle
      unfold chunkOff at h1 h2
      omega

/-- Witness for C3 at the range `[0, 5)` with no supersession: the run logs
no error. -/
theorem C3_chunk_emission_witness :
    (solutionsRequestRun (α := Nat) 1 0 5 (fun _ => 1)
        (fun _ _ => emptyBuckets Nat)).2 = [] :=
  (C3_chunk_emission 1 0 5 (by decide) (fun _ => 1) (fun _ _ => emptyBuckets Nat)
    (fun _ => rfl)).2.1

/-- Claim C4: starting a new request sets the active id, clears the five
buckets and re-initializes the pending count to the pool size; a subsequent
emission tagged with a non-active id leaves the state unchanged and publishes
nothing; and every snapshot published after the supersession carries the new
id and contains only solutions from emissions tagged with the new id. -/
theorem C4_supersession_isolation {α : Type} (st0 : AggState α) (r2 : Nat)
    (ms : List (SolutionsResponse α)) :
    ((sendSolutionsRequest st0 r2).activeRequestId = some r2
      ∧ (sendSolutionsRequest st0 r2).solutions = emptyBuckets α
      ∧ (sendSolutionsRequest st0 r2).activeWorkerCount = (st0.workerCount : Int))
    ∧ (∀ (st : AggState α) (resp : SolutionsResponse α),
        st.activeRequestId = some r2 → resp.requestId ≠ r2 →
        stepEmission st resp = (st, []))
    ∧ (∀ snap ∈ (runEmissions (sendSolutionsRequest st0 r2) ms).2,
        snap.requestId = r2
        ∧ ∀ x ∈ bucketsElems snap.solutions,
            ∃ m ∈ ms, m.requestId = r2 ∧ x ∈ bucketsElems m.payload) := by
  refine ⟨⟨rfl, rfl, rfl⟩, ?_, ?_⟩
  · intro st resp h1 h2
    apply stepEmission_dropped
    rw [h1]
    simp only [ne_eq, Option.some.injEq]
    exact fun h => h2 h.symm
  · intro snap hsnap
    obtain ⟨h1, h2⟩ := runEmissions_provenance r2 ms (sendSolutionsRequest st0 r2)
      rfl snap hsnap
    refine ⟨h1, ?_⟩
    intro x hx
    rcases h2 x hx with hx' | hm
    · simp [sendSolutionsRequest, emptyBuckets, bucketsElems] at hx'
    · exact hm

/-- Witness for C4: superseding request 1 with request 9 on a two-worker pool
updates the active id, clears the buckets and resets the pending count. -/
theorem C4_supersession_isolation_witness :
    (sendSolutionsRequest (⟨2, some 1, 2, ⟨[7], [], [], [], []⟩⟩ : AggState Nat) 9).activeRequestId
        = some 9
    ∧ (sendSolutionsRequest (⟨2, some 1, 2, ⟨[7], [], [], [], []⟩⟩ : AggState Nat) 9).solutions
        = emptyBuckets Nat
    ∧ (sendSolutionsRequest (⟨2, some 1, 2, ⟨[7], [], [], [], []⟩⟩ : AggState Nat) 9).activeWorkerCount
        = ((2 : Nat) : Int) :=
  (C4_supersession_isolation (⟨2, some 1, 2, ⟨[7], [], [], [], []⟩⟩ : AggState Nat) 9 []).1

/-- Claim C5: on an accepted emission the pending-worker count is decremented
exactly when `isFinalResponse` is set, and exactly one snapshot is published,
whose `isFinalOverall` flag is `true` exactly when the pending count after
that (conditional) decrement is zero. -/
theorem C5_pending_decrement {α : Type} (st : AggState α)
    (resp : SolutionsResponse α)
    (hacc : st.activeRequestId = some resp.requestId) :
    (stepEmission st resp).1.activeWorkerCount =
        (if resp.isFinalResponse then st.activeWorkerCount - 1
          else st.activeWorkerCount)
    ∧ ((stepEmission st resp).1.activeWorkerCount = st.activeWorkerCount - 1
        ↔ resp.isFinalResponse = true)
    ∧ (stepEmission st resp).2 =
        [⟨resp.requestId, appendBuckets st.solutions resp.payload,
          decide ((stepEmission st resp).1.activeWorkerCount = 0)⟩]
    ∧ (∀ snap ∈ (stepEmission st resp).2,
        (snap.isFinalOverall = true ↔
          (stepEmission st resp).1.activeWorkerCount = 0)) := by
  rw [stepEmission_accepted hacc]
  refine ⟨rfl, ?_, rfl, ?_⟩
  · cases hf : resp.isFinalResponse
    · simp [hf]
      omega
    · simp [hf]
  · intro snap hsnap
    simp only [List.mem_singleton] at hsnap
    subst hsnap
    simp [decide_eq_true_iff]

/-- Witness for C5: a final emission on a one-pending-worker pool publishes a
snapshot and drives the pending count to zero. -/
theorem C5_pending_decrement_witness :
    (stepEmission (⟨3, some 4, 1, emptyBuckets Nat⟩ : AggState Nat)
        ⟨4, true, emptyBuckets Nat⟩).2 =
      [⟨4, appendBuckets (emptyBuckets Nat) (emptyBuckets Nat),
        decide ((stepEmission (⟨3, some 4, 1, emptyBuckets Nat⟩ : AggState Nat)
          ⟨4, true, emptyBuckets Nat⟩).1.activeWorkerCount = 0)⟩] :=
  (C5_pending_decrement (⟨3, some 4, 1, emptyBuckets Nat⟩ : AggState Nat)
    ⟨4, true, emptyBuckets Nat⟩ rfl).2.2.1

/-- Claim C6: while request `r` is active, every published snapshot carries
id `r`, the cumulative solution counts of successive snapshots are
non-decreasing, and no snapshot ever drops below the count already stored
when the trace began — solutions are only appended, never removed. -/
theorem C6_monotone_counts {α : Type} (st : AggState α) (r : Nat)
    (ms : List (SolutionsResponse α)) (hactive : st.activeRequestId = some r) :
    (∀ snap ∈ (runEmissions st ms).2, snap.requestId = r)
    ∧ ((runEmissions st ms).2.map
        (fun snap => totalCount snap.solutions)).Pairwise (· ≤ ·)
    ∧ (∀ snap ∈ (runEmissions st ms).2,
        totalCount st.solutions ≤ totalCount snap.solutions) := by
  obtain ⟨-, hB, hC⟩ := runEmissions_counts ms st
  refine ⟨?_, hC, fun snap h => (hB snap h).1⟩
  intro snap h
  exact (runEmissions_provenance r ms st hactive snap h).1

/-- Witness for C6: two interleaved emissions for the active request yield
snapshots with non-decreasing cumulative counts. -/
theorem C6_monotone_counts_witness :
    ((runEmissions (⟨1, some 0, 1, emptyBuckets Nat⟩ : AggState Nat)
        [⟨0, false, ⟨[5], [], [], [], []⟩⟩, ⟨0, true, ⟨[6], [], [], [], []⟩⟩]).2.map
      (fun snap => totalCount snap.solutions)).Pairwise (· ≤ ·) :=
  (C6_monotone_counts (⟨1, some 0, 1, emptyBuckets Nat⟩ : AggState Nat) 0
    [⟨0, false, ⟨[5], [], [], [], []⟩⟩, ⟨0, true, ⟨[6], [], [], [], []⟩⟩] rfl).2.1

/-- Claim C7: whatever the interleaving, the chunks a worker emits are an
initial segment of the uninterrupted run's chunks, and if the yield point
after chunk `j` observes an active request id different from the worker's
own, no chunk beyond index `j` is emitted. -/
theorem C7_supersession_abandon {α : Type} (r lo hi : Nat)
    (observed : Nat → Nat) (solve : Nat → Nat → Buckets α) (j : Nat)
    (hj : observed j ≠ r) :
    ((solutionsRequestRun r lo hi observed solve).1).length ≤ j + 1
    ∧ (solutionsRequestRun r lo hi observed solve).1 =
        ((solutionsRequestRun r lo hi (fun _ => r) solve).1).take
          ((solutionsRequestRun r lo hi observed solve).1).length := by
  by_cases h0 : hi - lo = 0
  · unfold solutionsRequestRun
    simp [h0]
  · constructor
    · have h := solutionsLoop_length_le r ((hi - lo) / min (hi - lo) 4)
        ((hi - lo) % min (hi - lo) 4) (min (hi - lo) 4) observed solve j hj
        (min (hi - lo) 4) 0 lo (Nat.zero_le j)
      unfold solutionsRequestRun
      simp only [if_neg h0]
      rw [List.range_eq_range']
      omega
    · unfold solutionsRequestRun
      simp only [if_neg h0]
      exact solutionsLoop_take r _ _ _ observed solve
        (List.range (min (hi - lo) 4)) lo

/-- Witness for C7: with the range `[0, 8)` (four chunks) and a schedule that
observes a foreign id at the yield point after chunk 1, at most two chunks
are emitted. -/
theorem C7_supersession_abandon_witness :
    ((solutionsRequestRun (α := Nat) 1 0 8 (fun j => if j = 1 then 2 else 1)
        (fun _ _ => emptyBuckets Nat)).1).length ≤ 2 :=
  (C7_supersession_abandon 1 0 8 (fun j => if j = 1 then 2 else 1)
    (fun _ _ => emptyBuckets Nat) 1 (by decide)).1

/-- Claim C8: when the `solvers` URL parameter is missing, non-numeric
(`NaN`, modelled as `none`) or non-positive, it is discarded and the pool is
constructed with exactly `min(16, hardware parallelism)` workers. -/
theorem C8_default_solver_count (parsed : Option Int) (hardwareConcurrency : Nat)
    (hdiscard : ∀ v, parsed = some v → v ≤ 0) :
    maybeGetSolverCountFromUrl parsed = none
    ∧ constructedSolverCount parsed hardwareConcurrency =
        (defaultSolverCount hardwareConcurrency : Int)
    ∧ defaultSolverCount hardwareConcurrency = min 16 hardwareConcurrency := by
  have h1 : maybeGetSolverCountFromUrl parsed = none := by
    cases parsed with
    | none => rfl
    | some v => simp [maybeGetSolverCountFromUrl, hdiscard v rfl]
  exact ⟨h1, by simp [constructedSolverCount, h1], rfl⟩

/-- Witness for C8: a `solvers=-3` override on an 8-way machine is discarded
and the default of `min(16, 8) = 8` workers applies. -/
theorem C8_default_solver_count_witness :
    constructedSolverCount (some (-3)) 8 = (defaultSolverCount 8 : Int) :=
  (C8_default_solver_count (some (-3)) 8
    (by intro v hv; injection hv with h; omega)).2.1

/-- Claim C9: both dispatchers throw on an unknown `type` tag, with the
source's error message, and they throw only then — every known message kind
is handled without raising. -/
theorem C9_unknown_tag_error {α : Type} (st : AggState α) (msg : PoolMsg α)
    (getValidWords : String → Nat) (observed : Nat → Nat)
    (solve : Nat → Nat → Buckets α) (wst : WorkerState) (wmsg : WorkerMsg) :
    (∀ tag, handleWorkerMessage st (PoolMsg.unknown tag) =
        .error ("Unknown message received from worker: " ++ tag))
    ∧ (∀ tag, workerHandle getValidWords observed solve wst (WorkerMsg.unknown tag) =
        Except.error ("Unknown message received from main thread: " ++ tag))
    ∧ ((∃ tag, msg = PoolMsg.unknown tag) ↔
        ∃ e, handleWorkerMessage st msg = .error e)
    ∧ ((∃ tag, wmsg = WorkerMsg.unknown tag) ↔
        ∃ e, workerHandle getValidWords observed solve wst wmsg = .error e) := by
  refine ⟨fun tag => rfl, fun tag => rfl, ?_, ?_⟩
  · constructor
    · rintro ⟨tag, rfl⟩
      exact ⟨_, rfl⟩
    · rintro ⟨e, he⟩
      cases msg with
      | unknown tag => exact ⟨tag, rfl⟩
      | wasmInitialized => simp [handleWorkerMessage] at he
      | validWordsResponse requestId wordCount =>
        by_cases hc : st.activeRequestId = some requestId <;>
          simp [handleWorkerMessage, hc] at he
      | solutionsResponse resp =>
        by_cases hc : st.activeRequestId = some resp.requestId <;>
          simp [handleWorkerMessage, hc] at he
  · constructor
    · rintro ⟨tag, rfl⟩
      exact ⟨_, rfl⟩
    · rintro ⟨e, he⟩
      cases wmsg with
      | unknown tag => exact ⟨tag, rfl⟩
      | initWasmRequest =>
        by_cases hw : wst.wasmInitialized <;> simp [workerHandle, hw] at he
      | validWordsRequest requestId text =>
        by_cases hw : wst.wasmInitialized <;> simp [workerHandle, hw] at he
      | solutionsRequest req =>
        by_cases hw : wst.wasmInitialized <;> simp [workerHandle, hw] at he

/-- Witness for C9: a concrete bogus tag produces the source's error on the
pool side. -/
theorem C9_unknown_tag_error_witness :
    handleWorkerMessage (α := Nat) ⟨1, none, 0, emptyBuckets Nat⟩
        (PoolMsg.unknown "Bogus") =
      .error ("Unknown message received from worker: " ++ "Bogus") :=
  (C9_unknown_tag_error (α := Nat) ⟨1, none, 0, emptyBuckets Nat⟩
    (PoolMsg.unknown "Bogus") (fun _ => 0) (fun _ => 0)
    (fun _ _ => emptyBuckets Nat) ⟨false, none⟩ (WorkerMsg.unknown "Bogus")).1
    "Bogus"

/-- Claim C10: on a list of solutions that all have the same number of
space-separated words, `sortSolutions` returns a permutation of its input,
sorted so that no earlier solution compares after a later one under the
word-by-word comparison; at the first differing word position the shorter
word sorts first and, at equal length, the code-point-wise earlier word sorts
first; word lists that tie at every position compare as equal. -/
theorem C10_sortSolutions_spec (l : List String)
    (hsame : ∀ a ∈ l, ∀ b ∈ l, (wordsOf a).length = (wordsOf b).length) :
    List.Perm (sortSolutions l) l
    ∧ (sortSolutions l).Pairwise
        (fun lhs rhs => cmpWords (wordsOf lhs) (wordsOf rhs) ≠ some .gt)
    ∧ (∀ w1 w2 : String, w1.length < w2.length → cmpWord w1 w2 = .lt)
    ∧ (∀ w1 w2 : String, w1.length = w2.length →
        cmpWord w1 w2 = cmpChars w1.data w2.data)
    ∧ (∀ xs ys : List String,
        List.Forall₂ (fun w1 w2 => cmpWord w1 w2 = .eq) xs ys →
        cmpWords xs ys = some .eq) := by
  have hperm : List.Perm (sortSolutions l) l := List.perm_insertionSort _ l
  refine ⟨hperm, ?_, ?_, ?_, ?_⟩
  · haveI : IsTotal String (fun a b => solutionLe a b = true) :=
      ⟨fun a b => solutionLe_total a b⟩
    haveI : IsTrans String (fun a b => solutionLe a b = true) :=
      ⟨solutionLe_trans⟩
    have hs : (sortSolutions l).Pairwise (fun a b => solutionLe a b = true) :=
      List.sorted_insertionSort _ l
    refine hs.imp_of_mem ?_
    intro a b ha hb hab
    have hlen := hsame a (hperm.subset ha) b (hperm.subset hb)
    rw [cmpWords_eq_cmpList _ _ hlen]
    rw [solutionLe_iff] at hab
    intro hc
    apply hab
    simpa using hc
  · intro w1 w2 h
    unfold cmpWord
    rw [(cmpNat_lt_iff _ _).mpr h]
    rfl
  · intro w1 w2 h
    unfold cmpWord
    rw [(cmpNat_eq_iff _ _).mpr h]
    rfl
  · intro xs ys h
    induction h with
    | nil => rfl
    | cons hxy _ ih => simp [cmpWords, hxy, ih]

/-- Witness for C10: two 2-word solutions are permuted into comparator
order. -/
theorem C10_sortSolutions_spec_witness :
    List.Perm (sortSolutions ["BC A", "A BC"]) ["BC A", "A BC"] :=
  (C10_sortSolutions_spec ["BC A", "A BC"] (by decide)).1

end Letrboxd
